import Mathlib

/-!
Verification development for the kernel-plan generator in
nengo_ocl/clra_nonlinearities.py.

The embedding models:
- the contiguous ragged layout (per-group lengths, cumulative start offsets);
- the Blocked strategy (2-D grid, one work item per (element, group) pair,
  idle items culled by a bound check), from the n_elements == 0 branch of the
  kernel template;
- the Flattened strategy (1-D grid, each work item resolves the flat index
  gid * chunk by walking the length table, then performs chunk iterations,
  advancing one element at a time and rolling into the next group at a
  boundary), from the n_elements > 0 branch of the kernel template;
- the parameter classifier (static scalar vs dynamic ragged collection);
- the variable layout resolver and its assertion order;
- the work-size computation and the buffer-binding order.
-/

namespace NengoOCL

/-- Per-group flat-buffer start offset of group n in the contiguous ragged
layout: the sum of the lengths of the groups before it. -/
def startOf : List ℕ → ℕ → ℕ
  | _, 0 => 0
  | [], _ + 1 => 0
  | l :: ls, n + 1 => l + startOf ls n

/-- Total number of elements across all groups (np.sum of shape0s). -/
def totalLen (L : List ℕ) : ℕ := L.sum

/-- Largest group length (np.max of shape0s, with 0 for the empty list). -/
def maxLen (L : List ℕ) : ℕ := L.foldr max 0

theorem startOf_nil (n : ℕ) : startOf [] n = 0 := by
  cases n <;> rfl

theorem startOf_le_total (L : List ℕ) (n : ℕ) : startOf L n ≤ totalLen L := by
  induction L generalizing n with
  | nil => simp [startOf_nil, totalLen]
  | cons l ls ih =>
    cases n with
    | zero => simp [startOf]
    | succ n =>
      simp only [startOf, totalLen, List.sum_cons]
      exact Nat.add_le_add_left (ih n) l

theorem startOf_succ (L : List ℕ) (n : ℕ) (h : n < L.length) :
    startOf L (n + 1) = startOf L n + L.getD n 0 := by
  induction L generalizing n with
  | nil => simp at h
  | cons l ls ih =>
    cases n with
    | zero => simp [startOf]
    | succ n =>
      simp only [startOf, List.getD_cons_succ]
      rw [ih n (by simpa using h), Nat.add_assoc]

theorem startOf_length (L : List ℕ) : startOf L L.length = totalLen L := by
  induction L with
  | nil => rfl
  | cons l ls ih =>
    simp only [List.length_cons, startOf, totalLen, List.sum_cons]
    simp only [totalLen] at ih
    omega

theorem startOf_mono (L : List ℕ) {n n2 : ℕ} (h : n ≤ n2) :
    startOf L n ≤ startOf L n2 := by
  induction L generalizing n n2 with
  | nil => simp [startOf_nil]
  | cons l ls ih =>
    cases n with
    | zero => cases n2 <;> simp [startOf]
    | succ n =>
      cases n2 with
      | zero => omega
      | succ n2 => exact Nat.add_le_add_left (ih (by omega)) l

theorem pos_lt_total (L : List ℕ) {n m : ℕ} (hn : n < L.length)
    (hm : m < L.getD n 0) : startOf L n + m < totalLen L := by
  have h1 : startOf L n + m < startOf L (n + 1) := by
    rw [startOf_succ L n hn]; omega
  have h2 : startOf L (n + 1) ≤ totalLen L := startOf_le_total L (n + 1)
  omega

theorem pos_iff_lt_total (L : List ℕ) (p : ℕ) :
    (∃ n, n < L.length ∧ ∃ m, m < L.getD n 0 ∧ p = startOf L n + m) ↔
      p < totalLen L := by
  constructor
  · rintro ⟨n, hn, m, hm, rfl⟩
    exact pos_lt_total L hn hm
  · intro hp
    induction L generalizing p with
    | nil => simp [totalLen] at hp
    | cons l ls ih =>
      by_cases hl : p < l
      · exact ⟨0, by simp, p, by simpa [startOf] using hl⟩
      · have hp2 : p - l < totalLen ls := by
          simp only [totalLen, List.sum_cons] at hp ⊢; omega
        obtain ⟨n, hn, m, hm, hpm⟩ := ih (p - l) hp2
        exact ⟨n + 1, by simpa using hn, m, by simpa using hm,
          by simp only [startOf]; omega⟩

theorem startOf_pos_inj (L : List ℕ) {n m n2 m2 : ℕ}
    (hn : n < L.length) (hn2 : n2 < L.length)
    (hm : m < L.getD n 0) (hm2 : m2 < L.getD n2 0)
    (heq : startOf L n + m = startOf L n2 + m2) : n = n2 ∧ m = m2 := by
  have key : ∀ a b, a < b → b < L.length → ∀ x y, x < L.getD a 0 →
      startOf L a + x ≠ startOf L b + y := by
    intro a b hab hb x y hx
    have h1 : startOf L a + x < startOf L (a + 1) := by
      rw [startOf_succ L a (by omega)]; omega
    have h2 : startOf L (a + 1) ≤ startOf L b := startOf_mono L (by omega)
    omega
  rcases Nat.lt_trichotomy n n2 with h | h | h
  · exact absurd heq (key n n2 h hn2 m m2 hm)
  · subst h; omega
  · exact absurd heq.symm (key n2 n h hn m2 m hm2)

/-- Walk of the per-group length table performed at the top of the Flattened
kernel: while m >= lengths[n], subtract lengths[n] from m and move to the
next group.  Returns the pair
(n, m) on success; none models the walk running off the end of the table
(the n >= N case, where the kernel returns without computing). -/
def resolveIdx : List ℕ → ℕ → Option (ℕ × ℕ)
  | [], _ => none
  | l :: ls, m =>
    if m < l then some (0, m)
    else (resolveIdx ls (m - l)).map (fun p => (p.1 + 1, p.2))

/-- Flat positions processed by the chunk loop of the Flattened kernel,
starting at group n, offset m, with k iterations remaining.  Mirrors the
unrolled loop: process position startOf n + m; then, if iterations remain,
m++; if m >= lengths[n] move to group n+1 at offset 0 (returning when
n+1 >= N), else stay in the group. -/
def chunkRun (L : List ℕ) : ℕ → ℕ → ℕ → List ℕ
  | 0, _, _ => []
  | k + 1, n, m =>
    (startOf L n + m) ::
      (if k = 0 then []
       else
         if L.getD n 0 ≤ m + 1 then
           if L.length ≤ n + 1 then [] else chunkRun L k (n + 1) 0
         else chunkRun L k n (m + 1))

/-- Flat positions processed by Flattened work item gid: resolve gid * chunk
against the length table, return nothing if the walk exhausts the table,
otherwise run the chunk loop. -/
def flatItemVisits (L : List ℕ) (chunk gid : ℕ) : List ℕ :=
  match resolveIdx L (gid * chunk) with
  | none => []
  | some (n, m) => chunkRun L chunk n m

/-- Work size of the Flattened strategy:
int(np.ceil(np.sum(base.shape0s) / float(n_elements))). -/
def flatGsize (L : List ℕ) (chunk : ℕ) : ℕ := (totalLen L + chunk - 1) / chunk

/-- Work size of the Blocked strategy: (int(np.max(base.shape0s)), int(N)). -/
def blockedGsize (L : List ℕ) : ℕ × ℕ := (maxLen L, L.length)

/-- Flat positions processed by the whole Flattened launch. -/
def flatVisits (L : List ℕ) (chunk : ℕ) : List ℕ :=
  (List.range (flatGsize L chunk)).flatMap (flatItemVisits L chunk)

/-- Positions read by the Blocked work item (m, n): after the bound check
m < lengths[n], each read variable is loaded from in_name[name_starts[n] + m]. -/
def blockedItemReads (L : List ℕ) (m n : ℕ) : List ℕ :=
  if m < L.getD n 0 then [startOf L n + m] else []

/-- Positions written by the Blocked work item (m, n): after the bound check
m < lengths[n], each write variable is stored to in_name[name_starts[n] + m]. -/
def blockedItemWrites (L : List ℕ) (m n : ℕ) : List ℕ :=
  if m < L.getD n 0 then [startOf L n + m] else []

/-- Flat positions written by the whole Blocked launch (2-D grid of size
maxLen x N, idle items performing no write). -/
def blockedVisits (L : List ℕ) : List ℕ :=
  (List.range L.length).flatMap fun n =>
    (List.range (maxLen L)).flatMap fun m => blockedItemWrites L m n

/-- Effect of a kernel launch on the output buffer: every visited position p
receives f applied to the input buffer at p (input buffers are only read,
output buffers only written, so duplicate visits write the same value). -/
def writeSweep {α β : Type} (f : α → β) (inBuf : ℕ → α) (visits : List ℕ)
    (outBuf : ℕ → β) : ℕ → β :=
  visits.foldl (fun acc p => Function.update acc p (f (inBuf p))) outBuf

/-- Output buffer produced by the Blocked plan. -/
def blockedRun {α β : Type} (L : List ℕ) (f : α → β) (inBuf : ℕ → α)
    (outBuf : ℕ → β) : ℕ → β :=
  writeSweep f inBuf (blockedVisits L) outBuf

/-- Output buffer produced by the Flattened plan with the given chunk. -/
def flatRun {α β : Type} (L : List ℕ) (chunk : ℕ) (f : α → β) (inBuf : ℕ → α)
    (outBuf : ℕ → β) : ℕ → β :=
  writeSweep f inBuf (flatVisits L chunk) outBuf

theorem resolveIdx_some_char (L : List ℕ) (g : ℕ) :
    ∀ n m, resolveIdx L g = some (n, m) →
      n < L.length ∧ m < L.getD n 0 ∧ startOf L n + m = g := by
  induction L generalizing g with
  | nil => intro n m h; simp [resolveIdx] at h
  | cons l ls ih =>
    intro n m h
    simp only [resolveIdx] at h
    by_cases hg : g < l
    · simp only [if_pos hg, Option.some.injEq, Prod.mk.injEq] at h
      obtain ⟨rfl, rfl⟩ := h
      simpa [startOf] using hg
    · simp only [if_neg hg, Option.map_eq_some'] at h
      obtain ⟨⟨n0, m0⟩, hres, heq⟩ := h
      simp only [Prod.mk.injEq] at heq
      obtain ⟨rfl, rfl⟩ := heq
      obtain ⟨h1, h2, h3⟩ := ih (g - l) n0 m0 hres
      refine ⟨by simpa using h1, by simpa using h2, ?_⟩
      simp only [startOf]
      omega

theorem resolveIdx_isSome_of_lt (L : List ℕ) (g : ℕ) (h : g < totalLen L) :
    (resolveIdx L g).isSome := by
  induction L generalizing g with
  | nil => simp [totalLen] at h
  | cons l ls ih =>
    simp only [resolveIdx]
    by_cases hg : g < l
    · simp [hg]
    · have : g - l < totalLen ls := by
        simp only [totalLen, List.sum_cons] at h ⊢; omega
      simp only [if_neg hg, Option.isSome_map']
      exact ih (g - l) this

theorem resolveIdx_eq_none_of_ge (L : List ℕ) (g : ℕ) (h : totalLen L ≤ g) :
    resolveIdx L g = none := by
  induction L generalizing g with
  | nil => rfl
  | cons l ls ih =>
    simp only [totalLen, List.sum_cons] at h
    have hg : ¬ g < l := by omega
    simp only [resolveIdx, if_neg hg]
    rw [ih (g - l) (by simp only [totalLen]; omega)]
    rfl

theorem writeSweep_apply {α β : Type} (f : α → β) (inBuf : ℕ → α)
    (visits : List ℕ) (outBuf : ℕ → β) (p : ℕ) :
    writeSweep f inBuf visits outBuf p =
      if p ∈ visits then f (inBuf p) else outBuf p := by
  induction visits generalizing outBuf with
  | nil => simp [writeSweep]
  | cons v vs ih =>
    show writeSweep f inBuf vs (Function.update outBuf v (f (inBuf v))) p = _
    rw [ih]
    by_cases hv : p ∈ vs
    · simp [hv]
    · by_cases hpv : p = v
      · subst hpv; simp [hv, Function.update]
      · simp [hv, hpv, Function.update]

theorem getD_le_maxLen (L : List ℕ) (n : ℕ) (h : n < L.length) :
    L.getD n 0 ≤ maxLen L := by
  induction L generalizing n with
  | nil => simp at h
  | cons l ls ih =>
    cases n with
    | zero => simp [maxLen]
    | succ n =>
      simp only [List.getD_cons_succ, maxLen, List.foldr_cons]
      exact le_trans (ih n (by simpa using h)) (Nat.le_max_right _ _)

theorem getD_pos (L : List ℕ) (hpos : ∀ l ∈ L, 0 < l) (n : ℕ)
    (h : n < L.length) : 0 < L.getD n 0 := by
  rw [List.getD_eq_getElem L 0 h]
  exact hpos _ (List.getElem_mem h)

theorem mem_blockedVisits (L : List ℕ) (p : ℕ) :
    p ∈ blockedVisits L ↔
      ∃ n, n < L.length ∧ ∃ m, m < L.getD n 0 ∧ p = startOf L n + m := by
  simp only [blockedVisits, List.mem_flatMap, List.mem_range, blockedItemWrites]
  constructor
  · rintro ⟨n, hn, m, hm, hmem⟩
    by_cases h : m < L.getD n 0
    · rw [if_pos h] at hmem
      simp only [List.mem_singleton] at hmem
      exact ⟨n, hn, m, h, hmem⟩
    · rw [if_neg h] at hmem
      simp at hmem
  · rintro ⟨n, hn, m, hm, rfl⟩
    exact ⟨n, hn, m, lt_of_lt_of_le hm (getD_le_maxLen L n hn),
      by rw [if_pos hm]; exact List.mem_singleton_self _⟩

theorem mem_blockedVisits_iff_lt_total (L : List ℕ) (p : ℕ) :
    p ∈ blockedVisits L ↔ p < totalLen L := by
  rw [mem_blockedVisits]
  exact pos_iff_lt_total L p

theorem cons_range_map (p s : ℕ) :
    p :: (List.range s).map (fun x => p + 1 + x) =
      (List.range (s + 1)).map (fun x => p + x) := by
  rw [List.range_succ_eq_map, List.map_cons, List.map_map]
  simp only [Nat.add_zero]
  congr 1
  apply List.map_congr_left
  intro x _
  simp only [Function.comp_apply, Nat.succ_eq_add_one]
  omega

theorem chunkRun_char (L : List ℕ) (hpos : ∀ l ∈ L, 0 < l) :
    ∀ k n m, n < L.length → m < L.getD n 0 →
      chunkRun L k n m =
        (List.range (min k (totalLen L - (startOf L n + m)))).map
          (fun x => startOf L n + m + x) := by
  intro k
  induction k with
  | zero => intro n m _ _; simp [chunkRun]
  | succ k ih =>
    intro n m hn hm
    have hp : startOf L n + m < totalLen L := pos_lt_total L hn hm
    by_cases hk : k = 0
    · subst hk
      have h1 : min 1 (totalLen L - (startOf L n + m)) = 1 := by omega
      have hr1 : List.range 1 = [0] := by decide
      simp [chunkRun, h1, hr1]
    · simp only [chunkRun, if_neg hk]
      by_cases hb : L.getD n 0 ≤ m + 1
      · by_cases hlast : L.length ≤ n + 1
        · rw [if_pos hb, if_pos hlast]
          have hend : startOf L n + L.getD n 0 = totalLen L := by
            have h1 := startOf_succ L n hn
            have h2 : n + 1 = L.length := by omega
            rw [h2] at h1
            rw [startOf_length] at h1
            omega
          have h1 : min (k + 1) (totalLen L - (startOf L n + m)) = 1 := by
            omega
          have hr1 : List.range 1 = [0] := by decide
          simp [h1, hr1]
        · rw [if_pos hb, if_neg hlast]
          have hn1 : n + 1 < L.length := by omega
          have hpos1 : 0 < L.getD (n + 1) 0 := getD_pos L hpos (n + 1) hn1
          have hstep : startOf L (n + 1) + 0 = startOf L n + m + 1 := by
            rw [startOf_succ L n hn]; omega
          have hp1 : startOf L n + m + 1 < totalLen L := by
            have := pos_lt_total L hn1 hpos1
            omega
          rw [ih (n + 1) 0 hn1 hpos1, hstep]
          have hmin : min (k + 1) (totalLen L - (startOf L n + m)) =
              min k (totalLen L - (startOf L n + m + 1)) + 1 := by omega
          rw [hmin, ← cons_range_map]
      · rw [if_neg hb]
        have hm1 : m + 1 < L.getD n 0 := by omega
        have hstep : startOf L n + (m + 1) = startOf L n + m + 1 := by omega
        have hp1 : startOf L n + m + 1 < totalLen L := by
          have := pos_lt_total L hn hm1
          omega
        rw [ih n (m + 1) hn hm1, hstep]
        have hmin : min (k + 1) (totalLen L - (startOf L n + m)) =
            min k (totalLen L - (startOf L n + m + 1)) + 1 := by omega
        rw [hmin, ← cons_range_map]

theorem flatItemVisits_char (L : List ℕ) (hpos : ∀ l ∈ L, 0 < l)
    (chunk gid : ℕ) (hg : gid * chunk < totalLen L) :
    flatItemVisits L chunk gid =
      (List.range (min chunk (totalLen L - gid * chunk))).map
        (fun x => gid * chunk + x) := by
  have hs := resolveIdx_isSome_of_lt L (gid * chunk) hg
  obtain ⟨⟨n, m⟩, hres⟩ := Option.isSome_iff_exists.mp hs
  obtain ⟨hn, hm, hstart⟩ := resolveIdx_some_char L (gid * chunk) n m hres
  have hfv : flatItemVisits L chunk gid = chunkRun L chunk n m := by
    unfold flatItemVisits
    rw [hres]
  rw [hfv, chunkRun_char L hpos chunk n m hn hm, hstart]

theorem flatItemVisits_of_ge (L : List ℕ) (chunk gid : ℕ)
    (hg : totalLen L ≤ gid * chunk) : flatItemVisits L chunk gid = [] := by
  unfold flatItemVisits
  rw [resolveIdx_eq_none_of_ge L (gid * chunk) hg]

theorem flatPrefix (L : List ℕ) (hpos : ∀ l ∈ L, 0 < l) (chunk : ℕ) :
    ∀ G, (List.range G).flatMap (flatItemVisits L chunk) =
      List.range (min (G * chunk) (totalLen L)) := by
  intro G
  induction G with
  | zero => simp
  | succ G ih =>
    rw [List.range_succ, List.flatMap_append, ih]
    simp only [List.flatMap_cons, List.flatMap_nil, List.append_nil]
    by_cases hG : totalLen L ≤ G * chunk
    · rw [flatItemVisits_of_ge L chunk G hG]
      have h1 : min (G * chunk) (totalLen L) = totalLen L := by omega
      have h2 : min ((G + 1) * chunk) (totalLen L) = totalLen L := by
        have : G * chunk ≤ (G + 1) * chunk :=
          Nat.mul_le_mul_right chunk (by omega)
        omega
      rw [h1, h2, List.append_nil]
    · push_neg at hG
      rw [flatItemVisits_char L hpos chunk G hG]
      have h1 : min (G * chunk) (totalLen L) = G * chunk := by omega
      rw [h1, ← List.range_add]
      congr 1
      have h2 : (G + 1) * chunk = G * chunk + chunk := by ring
      omega

theorem total_le_flatGsize_mul (L : List ℕ) (chunk : ℕ) (hc : 0 < chunk) :
    totalLen L ≤ flatGsize L chunk * chunk := by
  rw [flatGsize]
  have h1 : chunk * ((totalLen L + chunk - 1) / chunk) +
      (totalLen L + chunk - 1) % chunk = totalLen L + chunk - 1 :=
    Nat.div_add_mod _ _
  have h2 : (totalLen L + chunk - 1) % chunk < chunk :=
    Nat.mod_lt _ hc
  have h3 : chunk * ((totalLen L + chunk - 1) / chunk) =
      totalLen L + chunk - 1 - (totalLen L + chunk - 1) % chunk :=
    Nat.eq_sub_of_add_eq h1
  rw [Nat.mul_comm]
  rw [h3]
  omega

theorem flatVisits_eq_range (L : List ℕ) (hpos : ∀ l ∈ L, 0 < l)
    (chunk : ℕ) (hc : 0 < chunk) :
    flatVisits L chunk = List.range (totalLen L) := by
  rw [flatVisits, flatPrefix L hpos chunk (flatGsize L chunk)]
  congr 1
  have := total_le_flatGsize_mul L chunk hc
  omega

/-- Per-element LIF update, translated from the core_text of plan_lif with
dt_inv = 1/dt precomputed as in the python textconf, V_threshold = 1.
Input state (j, v, w), parameters ref and tau, step size dt; returns
(ov, ow, os). -/
def lifStep (ref tau dt j v w : ℚ) : ℚ × ℚ × ℚ :=
  let dtInv : ℚ := 1 / dt
  let dV := (dt / tau) * (j - v)
  let v1 := v + dV
  let v2 :=
    if v1 < 0 ∨ w > 2 * dt then 0
    else if w > dt then v1 * (1 - (w - dt) * dtInv)
    else v1
  let spiked := v2 > 1
  if spiked then (0, ref - (dt * (v2 - 1) / dV) + dt, 1)
  else (v2, w - dt, 0)

/-- Modelled from the claim wording (for the refinement comparison of C3):
the update law as the specification states it, with the decay factor written
1 - (w - dt)/dt. -/
def lifSpecStep (ref tau dt j v w : ℚ) : ℚ × ℚ × ℚ :=
  let dV := (dt / tau) * (j - v)
  let v1 := v + dV
  let v2 :=
    if v1 < 0 ∨ w > 2 * dt then 0
    else if w > dt then v1 * (1 - (w - dt) / dt)
    else v1
  let spiked := v2 > 1
  let overshoot := dt * (v2 - 1) / dV
  if spiked then (0, ref - overshoot + dt, 1)
  else (v2, w - dt, 0)

/-- Layout metadata of a CLRaggedArray: per-group row counts (shape0s),
per-group column counts (shape1s) and the element dtype tag. -/
structure RaggedColl where
  shape0s : List ℕ
  shape1s : List ℕ
  dtype : String
deriving DecidableEq

/-- Python value supplied as a parameter: a CLRaggedArray, a value float()
accepts, or a value float() rejects. -/
inductive PyVal where
  | ra : RaggedColl → PyVal
  | num : ℚ → PyVal
  | nonNum : PyVal
deriving DecidableEq

/-- Result of float(v): some for coercible values, none when float() raises. -/
def floatOf : PyVal → Option ℚ
  | .num q => some q
  | _ => none

/-- isinstance(v, CLRaggedArray). -/
def isRA : PyVal → Bool
  | .ra _ => true
  | _ => false

/-- Failure kinds of a plan build. -/
inductive PlanError where
  | nameCollision
  | shapeMismatch
  | typeConversion
deriving DecidableEq

/-- Parameter classification loop (lines 92-102): CLRaggedArray values go to
uparams, any other value is coerced by float() into sparams, and a failed
coercion raises. -/
def classifyParams :
    List (String × PyVal) →
      Except PlanError (List (String × ℚ) × List (String × RaggedColl))
  | [] => .ok ([], [])
  | (k, v) :: rest =>
    match v with
    | .ra r =>
      match classifyParams rest with
      | .ok (s, u) => .ok (s, (k, r) :: u)
      | .error e => .error e
    | w =>
      match floatOf w with
      | some x =>
        match classifyParams rest with
        | .ok (s, u) => .ok ((k, x) :: s, u)
        | .error e => .error e
      | none => .error .typeConversion

/-- Check that every group of the collection is declared as a 1-D vector:
equal_arrays(v.shape1s, 1). -/
def rank1 (v : RaggedColl) : Bool := v.shape1s.all (fun s => decide (s = 1))

/-- Variable layout resolution loop (lines 108-119).  For each named
collection, in order: assert the name is new, assert len(v) == N, assert
equal_arrays(v.shape0s, base.shape0s), assert equal_arrays(v.shape1s, 1);
then record (dtype, offset expression).  seen holds the names already
registered in the variables dict. -/
def resolveVars (base : RaggedColl) :
    List (String × RaggedColl) → List String →
      Except PlanError (List (String × String × String))
  | [], _ => .ok []
  | (vname, v) :: rest, seen =>
    if vname ∈ seen then .error .nameCollision
    else if v.shape0s.length ≠ base.shape0s.length then .error .shapeMismatch
    else if v.shape0s ≠ base.shape0s then .error .shapeMismatch
    else if ¬ rank1 v then .error .shapeMismatch
    else
      match resolveVars base rest (vname :: seen) with
      | .ok tl => .ok ((vname, v.dtype, vname ++ "_starts[n]") :: tl)
      | .error e => .error e

/-- Python dict insertion d[k] = v on an association list: replace the value
in place if the key exists, append otherwise. -/
def dictUpd {α : Type} (d : List (String × α)) (k : String) (v : α) :
    List (String × α) :=
  if d.any (fun p => decide (p.1 = k)) then
    d.map (fun p => if p.1 = k then (k, v) else p)
  else d ++ [(k, v)]

/-- Python dict(d1.items() + d2.items()): entries of d2 inserted into d1 one
by one, later values silently replacing earlier ones with the same key. -/
def dictMerge {α : Type} (d1 d2 : List (String × α)) : List (String × α) :=
  d2.foldl (fun d p => dictUpd d p.1 p.2) d1

/-- One kernel argument slot: a per-variable start-offset table, a
per-variable flat data buffer, or the shared per-group length table. -/
inductive ArgKind where
  | startsTable : String → ArgKind
  | dataBuf : String → ArgKind
  | lengthsTable : ArgKind
deriving DecidableEq

/-- Buffer-binding order used at dispatch (lines 242-246): for each entry of
avars its cl_starts then its cl_buf, then base.cl_shape0s. -/
def fullArgsSig (names : List String) : List ArgKind :=
  (names.flatMap fun n => [ArgKind.startsTable n, ArgKind.dataBuf n]) ++
    [ArgKind.lengthsTable]

/-- Parameter order of the generated kernel entry point fn (template lines
131-141, identical in both strategy branches): for each ivariable its starts
table and data buffer, then the same for each ovariable, then lengths. -/
def kernelParamSig (ivarNames ovarNames : List String) : List ArgKind :=
  (ivarNames.flatMap fun n => [ArgKind.startsTable n, ArgKind.dataBuf n]) ++
    (ovarNames.flatMap fun n => [ArgKind.startsTable n, ArgKind.dataBuf n]) ++
    [ArgKind.lengthsTable]

/-- A built plan: kernel name, work size and bound-argument layout. -/
structure KernelPlan where
  planName : String
  gsize : List ℕ
  args : List ArgKind
deriving DecidableEq

/-- The _plan_template pipeline: pick the reference input, classify the
parameters, merge inputs with the dynamic parameters (dict(inputs.items() +
uparams.items())), append the outputs, resolve the variable layout, then
build the plan with the strategy-dependent work size and the fixed binding
order.  nElements = 0 selects the Blocked strategy, nElements > 0 the
Flattened strategy with chunk nElements. -/
def planTemplate (planName : String) (nElements : ℕ)
    (inputs outputs : List (String × RaggedColl))
    (params : List (String × PyVal)) : Except PlanError KernelPlan :=
  let base : RaggedColl := (inputs.map Prod.snd).headD ⟨[], [], ""⟩
  match classifyParams params with
  | .error e => .error e
  | .ok (_, uparams) =>
    let avars := dictMerge inputs uparams ++ outputs
    match resolveVars base avars [] with
    | .error e => .error e
    | .ok _ =>
      .ok { planName := planName
            gsize :=
              if 0 < nElements then [flatGsize base.shape0s nElements]
              else [maxLen base.shape0s, base.shape0s.length]
            args := fullArgsSig (avars.map Prod.fst) }

theorem maxLen_mem (L : List ℕ) (h : L ≠ []) : maxLen L ∈ L := by
  induction L with
  | nil => exact absurd rfl h
  | cons l ls ih =>
    by_cases hls : ls = []
    · subst hls
      simp [maxLen]
    · simp only [maxLen, List.foldr_cons]
      rcases Nat.le_total (ls.foldr max 0) l with hle | hle
      · rw [Nat.max_eq_left hle]
        exact List.mem_cons_self l ls
      · rw [Nat.max_eq_right hle]
        exact List.mem_cons_of_mem l (ih hls)

/-- Static part of the parameter partition: the float()-coercible values with
their coerced scalars, in order. -/
def staticPart (ps : List (String × PyVal)) : List (String × ℚ) :=
  ps.filterMap (fun p => (floatOf p.2).map (fun q => (p.1, q)))

/-- Dynamic part of the parameter partition: the CLRaggedArray values, in
order. -/
def dynPart (ps : List (String × PyVal)) : List (String × RaggedColl) :=
  ps.filterMap (fun p => match p.2 with | .ra r => some (p.1, r) | _ => none)

/-- C3: the generated LIF kernel body computes exactly the update law stated
in the specification: dV = (dt/tau)(j - v); the voltage is reset to 0 when
it went negative or w > 2 dt, scaled by 1 - (w - dt)/dt when w > dt; a spike
is detected when the voltage exceeds the threshold 1, in which case the
overshoot-corrected refractory value ref - dt(v - 1)/dV + dt is stored and
the voltage cleared, otherwise w decreases by dt; os is 1 on a spike else 0. -/
theorem lif_body_matches_spec_law (ref tau dt j v w : ℚ) :
    lifStep ref tau dt j v w = lifSpecStep ref tau dt j v w := by
  simp only [lifStep, lifSpecStep, mul_one_div]

/-- C8: the dispatch-time buffer binding order (for each read variable its
start table then its data buffer, then each write variable likewise, then
the shared length table) coincides with the parameter order of the generated
kernel entry point fn, which is the same in both strategy branches of the
template. -/
theorem binding_order_matches_kernel_sig (ivarNames ovarNames : List String) :
    fullArgsSig (ivarNames ++ ovarNames) = kernelParamSig ivarNames ovarNames := by
  simp only [fullArgsSig, kernelParamSig, List.flatMap_append, List.append_assoc]

/-- C5: parameter classification partitions the parameter list: every
CLRaggedArray value becomes a dynamic parameter, every other value is
coerced by float() into a static scalar, and the step fails exactly when
some non-collection value is not coercible; it is a pure function of the
parameter list. -/
theorem classify_partition (ps : List (String × PyVal)) :
    classifyParams ps =
      if ps.all (fun p => isRA p.2 || (floatOf p.2).isSome) then
        .ok (staticPart ps, dynPart ps)
      else .error .typeConversion := by
  induction ps with
  | nil => rfl
  | cons p rest ih =>
    obtain ⟨k, v⟩ := p
    cases v with
    | ra r =>
      have hcl : classifyParams ((k, PyVal.ra r) :: rest) =
          match classifyParams rest with
          | .ok (s, u) => .ok (s, (k, r) :: u)
          | .error e => .error e := rfl
      have hcond : (((k, PyVal.ra r) :: rest).all
            fun p => isRA p.2 || (floatOf p.2).isSome) =
          (rest.all fun p => isRA p.2 || (floatOf p.2).isSome) := by
        simp [isRA]
      have hsp : staticPart ((k, PyVal.ra r) :: rest) = staticPart rest := rfl
      have hdp : dynPart ((k, PyVal.ra r) :: rest) = (k, r) :: dynPart rest :=
        rfl
      rw [hcl, ih, hcond, hsp, hdp]
      by_cases hall :
          (rest.all fun p => isRA p.2 || (floatOf p.2).isSome) = true
      · rw [if_pos hall, if_pos hall]
      · rw [Bool.not_eq_true] at hall
        rw [if_neg (by simp [hall]), if_neg (by simp [hall])]
    | num q =>
      have hcl : classifyParams ((k, PyVal.num q) :: rest) =
          match classifyParams rest with
          | .ok (s, u) => .ok ((k, q) :: s, u)
          | .error e => .error e := rfl
      have hcond : (((k, PyVal.num q) :: rest).all
            fun p => isRA p.2 || (floatOf p.2).isSome) =
          (rest.all fun p => isRA p.2 || (floatOf p.2).isSome) := by
        simp [isRA, floatOf]
      have hsp : staticPart ((k, PyVal.num q) :: rest) =
          (k, q) :: staticPart rest := rfl
      have hdp : dynPart ((k, PyVal.num q) :: rest) = dynPart rest := rfl
      rw [hcl, ih, hcond, hsp, hdp]
      by_cases hall :
          (rest.all fun p => isRA p.2 || (floatOf p.2).isSome) = true
      · rw [if_pos hall, if_pos hall]
      · rw [Bool.not_eq_true] at hall
        rw [if_neg (by simp [hall]), if_neg (by simp [hall])]
    | nonNum =>
      have hcl : classifyParams ((k, PyVal.nonNum) :: rest) =
          .error .typeConversion := rfl
      have hcond : (((k, PyVal.nonNum) :: rest).all
            fun p => isRA p.2 || (floatOf p.2).isSome) = false := by
        simp [isRA, floatOf]
      rw [hcl, hcond]
      rw [if_neg (by simp)]

/-- C6: the work size is the pair (max over groups of the group length, N)
for the Blocked strategy, and the single value ceil(total element count /
chunk) for the Flattened strategy. -/
theorem gsize_matches_strategy (L : List ℕ) (chunk : ℕ) (hc : 1 ≤ chunk) :
    ((flatGsize L chunk : ℤ) = ⌈(totalLen L : ℚ) / (chunk : ℚ)⌉) ∧
    (blockedGsize L).2 = L.length ∧
    (∀ i, i < L.length → L.getD i 0 ≤ (blockedGsize L).1) ∧
    (L ≠ [] → (blockedGsize L).1 ∈ L) := by
  refine ⟨?_, rfl, fun i hi => getD_le_maxLen L i hi, fun h => maxLen_mem L h⟩
  have hc0 : (0 : ℚ) < (chunk : ℚ) := by exact_mod_cast hc
  rcases Nat.eq_zero_or_pos (totalLen L) with h0 | h0
  · have hz : flatGsize L chunk = 0 := by
      rw [flatGsize, h0]
      exact Nat.div_eq_of_lt (by omega)
    rw [hz, h0]
    simp
  · symm
    rw [Int.ceil_eq_iff]
    constructor
    · rw [lt_div_iff₀ hc0]
      have hub : flatGsize L chunk * chunk ≤ totalLen L + chunk - 1 := by
        rw [flatGsize]
        exact Nat.div_mul_le_self _ _
      have hq : (flatGsize L chunk : ℚ) * chunk ≤
          (totalLen L : ℚ) + chunk - 1 := by
        have hcast : ((flatGsize L chunk * chunk : ℕ) : ℚ) ≤
            ((totalLen L + chunk - 1 : ℕ) : ℚ) := by exact_mod_cast hub
        push_cast at hcast
        rw [Nat.cast_sub (by omega)] at hcast
        push_cast at hcast
        linarith
      have h1 : (1 : ℚ) ≤ (totalLen L : ℚ) := by exact_mod_cast h0
      push_cast
      linarith
    · rw [div_le_iff₀ hc0]
      have hlb := total_le_flatGsize_mul L chunk (by omega)
      exact_mod_cast hlb

theorem isOk_ok {e a : Type} (x : a) : (Except.ok x : Except e a).isOk = true :=
  rfl

theorem isOk_error {e a : Type} (x : e) :
    (Except.error x : Except e a).isOk = false := rfl

theorem resolveVars_ok_iff (base : RaggedColl) :
    ∀ (avars : List (String × RaggedColl)) (seen : List String),
      (resolveVars base avars seen).isOk = true ↔
        ((avars.map Prod.fst).Nodup ∧ (∀ p ∈ avars, p.1 ∉ seen) ∧
          ∀ p ∈ avars, p.2.shape0s = base.shape0s ∧ rank1 p.2 = true) := by
  intro avars
  induction avars with
  | nil => intro seen; simp [resolveVars, isOk_ok]
  | cons pv rest ih =>
    intro seen
    obtain ⟨vname, v⟩ := pv
    by_cases h1 : vname ∈ seen
    · have hLHS : resolveVars base ((vname, v) :: rest) seen =
          .error .nameCollision := by
        simp [resolveVars, h1]
      rw [hLHS, isOk_error]
      constructor
      · intro h; exact absurd h Bool.false_ne_true
      · rintro ⟨-, h2, -⟩
        exact absurd h1 (h2 (vname, v) (List.mem_cons_self _ _))
    · by_cases h3 : v.shape0s = base.shape0s
      · by_cases h4 : rank1 v = true
        · have hLHS : (resolveVars base ((vname, v) :: rest) seen).isOk =
              (resolveVars base rest (vname :: seen)).isOk := by
            cases hrec : resolveVars base rest (vname :: seen) with
            | ok tl => simp [resolveVars, h1, h3, h4, hrec, isOk_ok]
            | error e => simp [resolveVars, h1, h3, h4, hrec, isOk_error]
          rw [hLHS, ih (vname :: seen)]
          constructor
          · rintro ⟨hnd, hseen, hsh⟩
            refine ⟨?_, ?_, ?_⟩
            · rw [List.map_cons, List.nodup_cons]
              refine ⟨?_, hnd⟩
              intro hmem
              obtain ⟨p, hp, hp1⟩ := List.mem_map.mp hmem
              exact (hseen p hp) (by rw [hp1]; exact List.mem_cons_self _ _)
            · intro p hp
              rcases List.mem_cons.mp hp with rfl | hp2
              · exact h1
              · exact fun hin => (hseen p hp2) (List.mem_cons_of_mem _ hin)
            · intro p hp
              rcases List.mem_cons.mp hp with rfl | hp2
              · exact ⟨h3, h4⟩
              · exact hsh p hp2
          · rintro ⟨hnd, hseen, hsh⟩
            rw [List.map_cons, List.nodup_cons] at hnd
            refine ⟨hnd.2, ?_, ?_⟩
            · intro p hp hmem
              rcases List.mem_cons.mp hmem with heq | hin
              · exact hnd.1 (List.mem_map.mpr ⟨p, hp, heq⟩)
              · exact (hseen p (List.mem_cons_of_mem _ hp)) hin
            · intro p hp
              exact hsh p (List.mem_cons_of_mem _ hp)
        · have hLHS : resolveVars base ((vname, v) :: rest) seen =
              .error .shapeMismatch := by
            simp [resolveVars, h1, h3, h4]
          rw [hLHS, isOk_error]
          constructor
          · intro h; exact absurd h Bool.false_ne_true
          · rintro ⟨-, -, hsh⟩
            exact absurd (hsh (vname, v) (List.mem_cons_self _ _)).2 h4
      · have hLHS : resolveVars base ((vname, v) :: rest) seen =
            .error .shapeMismatch := by
          by_cases hlen : v.shape0s.length ≠ base.shape0s.length
          · simp [resolveVars, h1, hlen]
          · simp [resolveVars, h1, hlen, h3]
        rw [hLHS, isOk_error]
        constructor
        · intro h; exact absurd h Bool.false_ne_true
        · rintro ⟨-, -, hsh⟩
          exact absurd (hsh (vname, v) (List.mem_cons_self _ _)).1 h3

/-- Layout of the collections used in the name-collision counterexample: one
group of two elements, declared as a column vector of floats. -/
def rcJ : RaggedColl := ⟨[2], [1], "float"⟩

/-- LIF payload at ref = 0, tau = 1, dt = 1, as a function from the
per-element read state (j, v, w) to the written state (ov, ow, os). -/
def lifDemo : ℚ × ℚ × ℚ → ℚ × ℚ × ℚ := fun s => lifStep 0 1 1 s.1 s.2.1 s.2.2

/-- Constant input buffers j = 2, v = 0, w = 0. -/
def lifDemoIn : ℕ → ℚ × ℚ × ℚ := fun _ => (2, 0, 0)

/-- Zero-initialized output buffers. -/
def lifDemoOut : ℕ → ℚ × ℚ × ℚ := fun _ => (0, 0, 0)

/-- C4 (amended): with the parameters already classified, the build succeeds
iff no name repeats across the merged read variables and the write variables
and every participating collection matches the reference shape0s and is
rank 1; any violation makes the build return an error before a plan value
exists.  A name shared between an input and a dynamic parameter is not a
violation: dict(inputs.items() + uparams.items()) silently merges the two. -/
theorem layout_validation_characterization (planName : String) (nElements : ℕ)
    (inputs outputs : List (String × RaggedColl))
    (params : List (String × PyVal)) (sp : List (String × ℚ))
    (up : List (String × RaggedColl))
    (hcl : classifyParams params = .ok (sp, up)) :
    (planTemplate planName nElements inputs outputs params).isOk = true ↔
      (((dictMerge inputs up ++ outputs).map Prod.fst).Nodup ∧
        ∀ p ∈ dictMerge inputs up ++ outputs,
          p.2.shape0s = ((inputs.map Prod.snd).headD ⟨[], [], ""⟩).shape0s ∧
          rank1 p.2 = true) := by
  have hpt : (planTemplate planName nElements inputs outputs params).isOk =
      (resolveVars ((inputs.map Prod.snd).headD ⟨[], [], ""⟩)
        (dictMerge inputs up ++ outputs) []).isOk := by
    simp only [planTemplate, hcl]
    cases hrv : resolveVars ((inputs.map Prod.snd).headD ⟨[], [], ""⟩)
        (dictMerge inputs up ++ outputs) [] with
    | ok tl => simp [hrv, isOk_ok]
    | error e => simp [hrv, isOk_error]
  rw [hpt, resolveVars_ok_iff]
  constructor
  · rintro ⟨hnd, -, hsh⟩
    exact ⟨hnd, hsh⟩
  · rintro ⟨hnd, hsh⟩
    exact ⟨hnd, fun p _ => List.not_mem_nil p.1, hsh⟩

/-- C4 counterexample: an input named j and a dynamic parameter named j share
a name, yet the build succeeds instead of failing: the dictionary merge
silently replaces the input entry with the parameter collection. -/
theorem shared_name_not_rejected :
    (planTemplate "lif_step" 0 [("j", rcJ)] [("ov", rcJ)]
      [("j", PyVal.ra rcJ)]).isOk = true := by decide

theorem layout_validation_witness :
    (planTemplate "p" 0 [("v", rcJ)] [("ov", rcJ)] []).isOk = true ↔
      (((dictMerge [("v", rcJ)] [] ++ [("ov", rcJ)]).map Prod.fst).Nodup ∧
        ∀ p ∈ dictMerge [("v", rcJ)] [] ++ [("ov", rcJ)],
          p.2.shape0s =
            (([("v", rcJ)].map Prod.snd).headD ⟨[], [], ""⟩).shape0s ∧
          rank1 p.2 = true) :=
  layout_validation_characterization "p" 0 [("v", rcJ)] [("ov", rcJ)]
    [] [] [] rfl

theorem gsize_matches_strategy_witness :
    ((flatGsize [3, 1, 4] 2 : ℤ) = ⌈(totalLen [3, 1, 4] : ℚ) / (2 : ℚ)⌉) ∧
    (blockedGsize [3, 1, 4]).2 = [3, 1, 4].length ∧
    (∀ i, i < [3, 1, 4].length →
      [3, 1, 4].getD i 0 ≤ (blockedGsize [3, 1, 4]).1) ∧
    ([3, 1, 4] ≠ [] → (blockedGsize [3, 1, 4]).1 ∈ [3, 1, 4]) :=
  gsize_matches_strategy [3, 1, 4] 2 (by decide)

/-- C9: each Flattened work item resolves its starting flat index gid * chunk
into a (group, offset) pair by walking the length table: on success the pair
addresses the flat position gid * chunk inside a real group and the chunk
loop starts there; the walk exhausts the table exactly when gid * chunk is
at or past the total element count, and then the item processes nothing. -/
theorem flat_walk_resolution (L : List ℕ) (chunk gid : ℕ) :
    (∀ n m, resolveIdx L (gid * chunk) = some (n, m) →
      n < L.length ∧ m < L.getD n 0 ∧ startOf L n + m = gid * chunk ∧
      flatItemVisits L chunk gid = chunkRun L chunk n m) ∧
    (resolveIdx L (gid * chunk) = none ↔ totalLen L ≤ gid * chunk) ∧
    (resolveIdx L (gid * chunk) = none → flatItemVisits L chunk gid = []) := by
  refine ⟨?_, ⟨?_, ?_⟩, ?_⟩
  · intro n m hres
    obtain ⟨h1, h2, h3⟩ := resolveIdx_some_char L (gid * chunk) n m hres
    refine ⟨h1, h2, h3, ?_⟩
    unfold flatItemVisits
    rw [hres]
  · intro hnone
    by_contra hlt
    push_neg at hlt
    have := resolveIdx_isSome_of_lt L (gid * chunk) hlt
    rw [hnone] at this
    exact absurd this (by simp)
  · intro hge
    exact resolveIdx_eq_none_of_ge L (gid * chunk) hge
  · intro hnone
    unfold flatItemVisits
    rw [hnone]

theorem flat_walk_resolution_witness :
    1 < [2, 3].length ∧ 0 < [2, 3].getD 1 0 ∧
      startOf [2, 3] 1 + 0 = 1 * 2 ∧
      flatItemVisits [2, 3] 2 1 = chunkRun [2, 3] 2 1 0 :=
  (flat_walk_resolution [2, 3] 2 1).1 1 0 (by decide)

/-- C10: every work item actually launched under the Flattened work size
starts at a flat index strictly below the total element count, so the walk
of the length table succeeds within the table (n < N with the table read
only on the consumed prefix) and the post-walk guard return is never taken. -/
theorem launched_items_in_bounds (L : List ℕ) (chunk gid : ℕ)
    (hc : 1 ≤ chunk) (ht : 0 < totalLen L) (hg : gid < flatGsize L chunk) :
    gid * chunk < totalLen L ∧
      ∃ n m, resolveIdx L (gid * chunk) = some (n, m) ∧ n < L.length ∧
        m < L.getD n 0 := by
  have hub : flatGsize L chunk * chunk ≤ totalLen L + chunk - 1 := by
    rw [flatGsize]
    exact Nat.div_mul_le_self _ _
  have hstep : (gid + 1) * chunk ≤ flatGsize L chunk * chunk :=
    Nat.mul_le_mul_right chunk (by omega)
  have hgc : gid * chunk < totalLen L := by
    have h1 : (gid + 1) * chunk = gid * chunk + chunk := by ring
    rw [h1] at hstep
    generalize hX : gid * chunk = X at hstep ⊢
    generalize hY : flatGsize L chunk * chunk = Y at hstep hub
    omega
  refine ⟨hgc, ?_⟩
  obtain ⟨⟨n, m⟩, hres⟩ :=
    Option.isSome_iff_exists.mp (resolveIdx_isSome_of_lt L (gid * chunk) hgc)
  obtain ⟨h1, h2, -⟩ := resolveIdx_some_char L (gid * chunk) n m hres
  exact ⟨n, m, hres, h1, h2⟩

theorem launched_items_in_bounds_witness :
    1 * 2 < totalLen [3] ∧
      ∃ n m, resolveIdx [3] (1 * 2) = some (n, m) ∧ n < [3].length ∧
        m < [3].getD n 0 :=
  launched_items_in_bounds [3] 2 1 (by decide) (by decide) (by decide)

/-- C7: a Blocked work item (m, n) with m >= lengths[n] performs no read and
no write; an active item reads each read variable at starts[n] + m and
writes each write variable at starts[n] + m exactly once; two distinct
active items address distinct positions, so their outputs are disjoint. -/
theorem blocked_item_behavior (L : List ℕ) (m n m2 n2 : ℕ)
    (hn : n < L.length) (hn2 : n2 < L.length) :
    (L.getD n 0 ≤ m →
      blockedItemReads L m n = [] ∧ blockedItemWrites L m n = []) ∧
    (m < L.getD n 0 →
      blockedItemReads L m n = [startOf L n + m] ∧
      blockedItemWrites L m n = [startOf L n + m] ∧
      (blockedItemWrites L m n).count (startOf L n + m) = 1) ∧
    (m < L.getD n 0 → m2 < L.getD n2 0 → (m, n) ≠ (m2, n2) →
      startOf L n + m ≠ startOf L n2 + m2) := by
  refine ⟨?_, ?_, ?_⟩
  · intro hidle
    constructor
    · rw [blockedItemReads, if_neg (by omega)]
    · rw [blockedItemWrites, if_neg (by omega)]
  · intro hact
    refine ⟨?_, ?_, ?_⟩
    · rw [blockedItemReads, if_pos hact]
    · rw [blockedItemWrites, if_pos hact]
    · rw [blockedItemWrites, if_pos hact]
      simp
  · intro hact hact2 hne heq
    obtain ⟨he1, he2⟩ := startOf_pos_inj L hn hn2 hact hact2 heq
    exact hne (by rw [he1, he2])

theorem blocked_item_behavior_witness :
    blockedItemWrites [2, 3] 1 0 = [startOf [2, 3] 0 + 1] ∧
      startOf [2, 3] 0 + 1 ≠ startOf [2, 3] 1 + 0 := by
  have h := blocked_item_behavior [2, 3] 1 0 0 1 (by decide) (by decide)
  exact ⟨(h.2.1 (by decide)).2.1, h.2.2 (by decide) (by decide) (by decide)⟩

/-- C1 (amended): when every group is non-empty and chunk >= 1, the Blocked
plan and the Flattened plan write identical values to every output position:
the two kernels compute the same per-element function and differ only in the
iteration scheme.  With a zero-length group between non-empty ones the
Flattened kernel can miss or duplicate elements, so the unrestricted claim
fails (see the counterexample). -/
theorem strategy_equivalence_pos_lengths {α β : Type} (f : α → β)
    (inBuf : ℕ → α) (outBuf : ℕ → β) (L : List ℕ) (chunk : ℕ)
    (hpos : ∀ l ∈ L, 0 < l) (hc : 1 ≤ chunk) (p : ℕ) :
    flatRun L chunk f inBuf outBuf p = blockedRun L f inBuf outBuf p := by
  rw [flatRun, blockedRun, writeSweep_apply, writeSweep_apply,
    flatVisits_eq_range L hpos chunk (by omega)]
  by_cases hp : p < totalLen L
  · rw [if_pos (List.mem_range.mpr hp),
      if_pos ((mem_blockedVisits_iff_lt_total L p).mpr hp)]
  · rw [if_neg (fun h => hp (List.mem_range.mp h)),
      if_neg (fun h => hp ((mem_blockedVisits_iff_lt_total L p).mp h))]

theorem strategy_equivalence_witness :
    flatRun [2, 1] 2 Nat.succ (fun _ => 0) (fun _ => 0) 1 =
      blockedRun [2, 1] Nat.succ (fun _ => 0) (fun _ => 0) 1 :=
  strategy_equivalence_pos_lengths Nat.succ (fun _ => 0) (fun _ => 0)
    [2, 1] 2 (by decide) (by decide) 1

/-- C1 counterexample: groups of lengths [1, 0, 2] with chunk 3 under the LIF
payload: the Flattened launch never visits flat position 2 (it gets stuck on
the empty group), while the Blocked launch computes the spiking update
there, so the two plans produce different (ov, ow, os) for that element. -/
theorem strategy_equivalence_fails_zero_group :
    flatRun [1, 0, 2] 3 lifDemo lifDemoIn lifDemoOut 2 ≠
      blockedRun [1, 0, 2] lifDemo lifDemoIn lifDemoOut 2 := by
  rw [flatRun, blockedRun, writeSweep_apply, writeSweep_apply,
    if_neg (by decide : ¬ (2 ∈ flatVisits [1, 0, 2] 3)),
    if_pos (by decide : 2 ∈ blockedVisits [1, 0, 2])]
  simp only [lifDemo, lifDemoIn, lifDemoOut, lifStep]
  norm_num [Prod.ext_iff]

/-- C2 (amended): the mid-chunk advance moves to the start of the next group
without skipping empty groups; whenever every group is non-empty (and also
in the particular configuration [3, 0, 5, 1] with chunk 4, where the only
empty group is absorbed by the contiguous layout), every element of every
group is visited exactly once across all work items, and an item whose
groups run out mid-chunk simply stops.  With an empty group between
non-empty ones the exactly-once property can fail (see counterexample). -/
theorem flat_visits_exactly_once :
    (∀ (L : List ℕ) (chunk : ℕ), (∀ l ∈ L, 0 < l) → 1 ≤ chunk →
      ∀ p, p < totalLen L → (flatVisits L chunk).count p = 1) ∧
    (∀ p ∈ List.range (totalLen [3, 0, 5, 1]),
      (flatVisits [3, 0, 5, 1] 4).count p = 1) := by
  constructor
  · intro L chunk hpos hc p hp
    rw [flatVisits_eq_range L hpos chunk (by omega)]
    exact List.count_eq_one_of_mem (List.nodup_range _) (List.mem_range.mpr hp)
  · decide

theorem flat_visits_exactly_once_witness :
    (flatVisits [2, 2] 3).count 3 = 1 :=
  flat_visits_exactly_once.1 [2, 2] 3 (by decide) (by decide) 3 (by decide)

/-- C2 counterexample: with group lengths [1, 0, 2] and chunk 3, the single
work item visits flat position 1 twice and never visits flat position 2, so
elements are both duplicated and skipped: the advance does not skip the
empty group, it re-enters the same flat position through it. -/
theorem flat_visits_skip_and_duplicate :
    (flatVisits [1, 0, 2] 3).count 1 = 2 ∧
      (flatVisits [1, 0, 2] 3).count 2 = 0 := by decide

end NengoOCL
